import Mathlib

/-!
Verification of `generate_filelist.py` (wbtb-helper).

The script scans a directory `audio/` for `*.mp3` files, renames every file
whose name does not already look like a hash to the first 12 hex characters
of the SHA-256 digest of its contents (16 characters when the 12-character
candidate name is already taken by a different file), and writes the sorted
list of resulting names to `filelist.json`.

Shallow embedding used here:
* a filename is a `List Char` (Python compares strings code point by code
  point, which is exactly lexicographic comparison of the char lists);
* the directory is an association list `List (Name × Digest)` mapping each
  filename to the hex SHA-256 digest of that file's contents — the script
  only ever inspects a file's contents through `sha256_of_file`, so the
  digest is a faithful stand-in for the contents;
* `Path.rename` has POSIX semantics: renaming onto an existing path
  silently replaces the destination, and renaming a path onto itself is a
  no-op;
* the whole filesystem is `Option Dir`: `none` models a missing (or
  non-directory) `audio/` path.
-/

/-- Filenames are lists of characters (Python `str`). -/
abbrev Name := List Char

/-- A hex digest, also a list of characters. -/
abbrev Digest := List Char

/-- A directory: an association list from filename to the hex SHA-256 digest
of the file's contents. -/
abbrev Dir := List (Name × Digest)

/-- Constant `HASH_LEN = 12` from the script. -/
def HASH_LEN : Nat := 12

/-- The extension string ".mp3". -/
def mp3Ext : Name := ".mp3".toList

/-- The sixteen lowercase hex digits, the string "0123456789abcdef" used by
`is_already_hashed`. -/
def hexDigits : List Char := "0123456789abcdef".toList

/-- Index of the last '.' in a name, mirroring Python `str.rfind('.')`
(returning `none` instead of `-1` when there is no dot). -/
def rfindDot : List Char → Option Nat
  | [] => none
  | c :: cs =>
    match rfindDot cs with
    | some i => some (i + 1)
    | none => if c = '.' then some 0 else none

/-- Python `PurePath(name).stem`: the name with its suffix removed, where the
suffix starts at the last '.' provided that dot is neither the first nor the
last character (`0 < i < len(name) - 1` in CPython's `PurePath.stem`). -/
def stemOf (name : List Char) : List Char :=
  match rfindDot name with
  | some i => if 0 < i ∧ i < name.length - 1 then name.take i else name
  | none => name

/-- `is_already_hashed` from the script: the stem has length `HASH_LEN` and
every character is a lowercase hex digit. -/
def is_already_hashed (name : Name) : Bool :=
  (stemOf name).length == HASH_LEN
    && (stemOf name).all (fun c => decide (c ∈ hexDigits))

/-- Lookup of a file's digest by name in a directory. -/
def lookupName (n : Name) : Dir → Option Digest
  | [] => none
  | e :: d => if e.1 = n then some e.2 else lookupName n d

/-- Model of `sha256_of_file`: reading a file's contents and hashing them
yields the digest stored for that name; `none` models the `FileNotFoundError`
raised by `open` when the path does not exist. -/
def sha256_of_file (d : Dir) (n : Name) : Option Digest := lookupName n d

/-- Model of `Path.exists` for a path inside the audio directory. -/
def existsIn (d : Dir) (n : Name) : Bool := (lookupName n d).isSome

/-- The list of filenames of a directory. -/
def fileNames (d : Dir) : List Name := d.map Prod.fst

/-- Model of POSIX `rename(src, dst)`: renaming a path onto itself is a
no-op; otherwise any existing entry at `dst` is silently replaced and the
entry at `src` now appears under the name `dst`. -/
def renameFile (d : Dir) (src dst : Name) : Dir :=
  if src = dst then d
  else (d.filter (fun e => decide (e.1 ≠ dst))).map
    (fun e => if e.1 = src then (dst, e.2) else e)

/-- Model of `fnmatch` against the glob pattern `*.mp3`: the name's last four
characters are ".mp3" (`*` may match the empty string, and matching is
case-sensitive on POSIX). -/
def matchesMp3 (n : Name) : Bool := decide (n.drop (n.length - 4) = mp3Ext)

/-- The names of the `.mp3` files of a directory. -/
def mp3Names (d : Dir) : List Name := (fileNames d).filter matchesMp3

/-- Lexicographic comparison of names by code point, mirroring Python's
`str.__lt__` (and hence `sorted` on same-directory `Path`s). -/
def lexLe : List Char → List Char → Bool
  | [], _ => true
  | _ :: _, [] => false
  | a :: as, b :: bs =>
    if a < b then true
    else if b < a then false
    else lexLe as bs

/-- Propositional form of `lexLe`. -/
def nameLe (a b : Name) : Prop := lexLe a b = true

instance : DecidableRel nameLe := fun a b =>
  inferInstanceAs (Decidable (lexLe a b = true))

/-- Model of Python's `sorted` / `list.sort` on filenames. -/
def sortNames (l : List Name) : List Name := List.insertionSort nameLe l

/-- Model of `sorted(AUDIO_DIR.glob("*.mp3"))`. -/
def globMp3Sorted (d : Dir) : List Name := sortNames (mp3Names d)

/-- State carried through the main loop of the script: the directory
contents, the accumulated `filenames` list and `renamed_count`. -/
structure LoopState where
  dir : Dir
  filenames : List Name
  renamed : Nat
deriving DecidableEq

/-- One iteration of the `for mp3 in mp3_files` loop. A conforming name is
passed through; otherwise the file is hashed, the 12-character candidate name
is formed, the collision test `new_path.exists() and new_path != mp3`
possibly extends the name to 16 characters (the script calls
`sha256_of_file` a second time here; the directory is unchanged in between,
so the same digest is returned), and the file is renamed. `none` models an
uncaught exception from `open`. -/
def processFile (st : LoopState) (n : Name) : Option LoopState :=
  if is_already_hashed n then
    some { st with filenames := st.filenames ++ [n] }
  else
    match sha256_of_file st.dir n with
    | none => none
    | some dig =>
      let new_name := dig.take HASH_LEN ++ mp3Ext
      let final_name :=
        if existsIn st.dir new_name ∧ new_name ≠ n then
          dig.take (HASH_LEN + 4) ++ mp3Ext
        else new_name
      some { dir := renameFile st.dir n final_name,
             filenames := st.filenames ++ [final_name],
             renamed := st.renamed + 1 }

/-- The whole `for` loop. On an uncaught exception the state at the failure
point is returned in the `error` branch (renames already performed stick). -/
def runLoop : LoopState → List Name → Except LoopState LoopState
  | st, [] => Except.ok st
  | st, n :: rest =>
    match processFile st n with
    | none => Except.error st
    | some st' => runLoop st' rest

/-- Diagnostics the script prints to stderr before exiting nonzero. -/
inductive Diagnostic where
  /-- "Audio directory not found", printed when `AUDIO_DIR.is_dir()` fails. -/
  | audioDirNotFound
  /-- "No .mp3 files found in audio/", printed when the glob is empty. -/
  | noMp3Found
  /-- An uncaught exception traceback (unreachable from well-formed
  directories). -/
  | uncaughtException
deriving DecidableEq

/-- Observable outcome of one run of the script: process exit status, the
diagnostic written to stderr (if any), the directory state afterwards
(`none` when the directory did not exist), the contents of `filelist.json`
if and only if it was written, and `renamed_count`. -/
structure MainResult where
  exitCode : Nat
  stderrDiag : Option Diagnostic
  dirState : Option Dir
  manifest : Option (List Name)
  renamedCount : Nat
deriving DecidableEq

/-- The `main()` function of the script (named `mainFn` here since Lean reserves
`main`), acting on the filesystem state of the audio directory
(`none` = directory missing or not a directory). -/
def mainFn (fs : Option Dir) : MainResult :=
  match fs with
  | none => ⟨1, some Diagnostic.audioDirNotFound, none, none, 0⟩
  | some d =>
    let mp3_files := globMp3Sorted d
    if mp3_files.isEmpty then ⟨1, some Diagnostic.noMp3Found, some d, none, 0⟩
    else
      match runLoop ⟨d, [], 0⟩ mp3_files with
      | Except.error st =>
        ⟨1, some Diagnostic.uncaughtException, some st.dir, none, st.renamed⟩
      | Except.ok st =>
        ⟨0, none, some st.dir, some (sortNames st.filenames), st.renamed⟩

/-- A well-formed hex SHA-256 digest: 64 lowercase hex characters. -/
def ValidDigest (c : Digest) : Prop := c.length = 64 ∧ ∀ x ∈ c, x ∈ hexDigits

/-- All digests stored in a directory are well-formed SHA-256 hex digests. -/
def ValidDigests (d : Dir) : Prop := ∀ e ∈ d, ValidDigest e.2

/-- A real directory never holds two files of the same name. -/
def NodupNames (d : Dir) : Prop := (fileNames d).Nodup

/-- A name of the shape `[0-9a-f]{k}\.mp3`. -/
def Conforms (k : Nat) (e : Name) : Prop :=
  ∃ s, e = s ++ mp3Ext ∧ s.length = k ∧ ∀ x ∈ s, x ∈ hexDigits

instance : DecidablePred (ValidDigest) := fun _ =>
  inferInstanceAs (Decidable (_ ∧ _))

instance : DecidablePred (ValidDigests) := fun _ =>
  inferInstanceAs (Decidable (∀ _ ∈ _, _))

instance : DecidablePred (NodupNames) := fun _ =>
  inferInstanceAs (Decidable (List.Nodup _))

/-- Variant of `processFile` in which the collision test is
`new_path.exists()` alone, dropping the `new_path != mp3` conjunct; used to
state the refinement claim that the two programs are observably identical. -/
def processFileAlt (st : LoopState) (n : Name) : Option LoopState :=
  if is_already_hashed n then
    some { st with filenames := st.filenames ++ [n] }
  else
    match sha256_of_file st.dir n with
    | none => none
    | some dig =>
      let new_name := dig.take HASH_LEN ++ mp3Ext
      let final_name :=
        if existsIn st.dir new_name = true then
          dig.take (HASH_LEN + 4) ++ mp3Ext
        else new_name
      some { dir := renameFile st.dir n final_name,
             filenames := st.filenames ++ [final_name],
             renamed := st.renamed + 1 }

/-- The loop of the variant program. -/
def runLoopAlt : LoopState → List Name → Except LoopState LoopState
  | st, [] => Except.ok st
  | st, n :: rest =>
    match processFileAlt st n with
    | none => Except.error st
    | some st' => runLoopAlt st' rest

/-- The variant program as a whole. -/
def mainFnAlt (fs : Option Dir) : MainResult :=
  match fs with
  | none => ⟨1, some Diagnostic.audioDirNotFound, none, none, 0⟩
  | some d =>
    let mp3_files := globMp3Sorted d
    if mp3_files.isEmpty then ⟨1, some Diagnostic.noMp3Found, some d, none, 0⟩
    else
      match runLoopAlt ⟨d, [], 0⟩ mp3_files with
      | Except.error st =>
        ⟨1, some Diagnostic.uncaughtException, some st.dir, none, st.renamed⟩
      | Except.ok st =>
        ⟨0, none, some st.dir, some (sortNames st.filenames), st.renamed⟩

/-- A 64-character hex digest beginning with "deadbeefcafe". -/
def digSong : Digest :=
  ("deadbeefcafe" ++ "0123456789abcdef0123456789abcdef0123456789abcdef"
    ++ "0123").toList

/-- A directory holding one non-conforming file `song.mp3`. -/
def dirSong : Dir := [("song.mp3".toList, digSong)]

/-- The directory `dirSong` after a successful run. -/
def dirSongAfter : Dir := [("deadbeefcafe.mp3".toList, digSong)]

/-- Digests agreeing on the first 12 (but not 16) hex characters. -/
def digColl1 : Digest :=
  ("000000000000" ++ "aaaa"
    ++ "000000000000000000000000000000000000000000000000").toList

/-- Second digest of the colliding pair. -/
def digColl2 : Digest :=
  ("000000000000" ++ "bbbb"
    ++ "000000000000000000000000000000000000000000000000").toList

/-- The 64-character digest made of 'a' characters. -/
def digIdA : Digest := (String.mk (List.replicate 64 'a')).toList

/-- The 64-character digest made of 'b' characters. -/
def digIdB : Digest := (String.mk (List.replicate 64 'b')).toList

/-- Two non-colliding files, input of the idempotence instance. -/
def dirIdem : Dir := [("a.mp3".toList, digIdA), ("b.mp3".toList, digIdB)]

/-- The directory `dirIdem` after a successful run. -/
def dirIdemAfter : Dir :=
  [("aaaaaaaaaaaa.mp3".toList, digIdA), ("bbbbbbbbbbbb.mp3".toList, digIdB)]

/-- The manifest written for `dirIdem`. -/
def manIdem : List Name :=
  ["aaaaaaaaaaaa.mp3".toList, "bbbbbbbbbbbb.mp3".toList]

/-- Short digests sharing a 12-character prefix (input states are arbitrary;
digest well-formedness is not needed to run the program). -/
def digCex1 : Digest := "000000000000aaaa".toList

/-- Second short digest of the pair. -/
def digCex2 : Digest := "000000000000bbbb".toList

/-- Directory whose two files collide on the first 12 digest characters. -/
def dirCex1 : Dir := [("a.mp3".toList, digCex1), ("b.mp3".toList, digCex2)]

/-- The directory `dirCex1` after the first run (one 16-character name). -/
def dirCex1After : Dir :=
  [("000000000000.mp3".toList, digCex1),
   ("000000000000bbbb.mp3".toList, digCex2)]

/-- The manifest both runs on `dirCex1` write. -/
def manCex1 : List Name :=
  ["000000000000.mp3".toList, "000000000000bbbb.mp3".toList]

/-- Digests of three files: the second and third share their first 16 hex
characters with each other and their first 12 with the first. -/
def digOver1 : Digest := "000000000000cccc".toList

/-- Second digest of the overwrite triple. -/
def digOver2 : Digest := "000000000000ffff0".toList

/-- Third digest of the overwrite triple. -/
def digOver3 : Digest := "000000000000ffff1".toList

/-- Directory in which the fallback rename silently overwrites a file. -/
def dirOver : Dir :=
  [("a.mp3".toList, digOver1), ("b.mp3".toList, digOver2),
   ("c.mp3".toList, digOver3)]

/-- The directory `dirOver` after the run: only two files remain. -/
def dirOverAfter : Dir :=
  [("000000000000.mp3".toList, digOver1),
   ("000000000000ffff.mp3".toList, digOver3)]

/-- The manifest written for `dirOver`: three entries, one name twice. -/
def manOver : List Name :=
  ["000000000000.mp3".toList, "000000000000ffff.mp3".toList,
   "000000000000ffff.mp3".toList]

/-- A second overwrite triple (with '1'-prefixed digests). -/
def digDup1 : Digest := "111111111111cccc".toList

/-- Second digest of the duplicate triple. -/
def digDup2 : Digest := "111111111111ffff0".toList

/-- Third digest of the duplicate triple. -/
def digDup3 : Digest := "111111111111ffff1".toList

/-- Directory producing a manifest with a duplicated entry. -/
def dirDup : Dir :=
  [("a.mp3".toList, digDup1), ("b.mp3".toList, digDup2),
   ("c.mp3".toList, digDup3)]

/-- The directory `dirDup` after the run. -/
def dirDupAfter : Dir :=
  [("111111111111.mp3".toList, digDup1),
   ("111111111111ffff.mp3".toList, digDup3)]

/-- The manifest written for `dirDup`. -/
def manDup : List Name :=
  ["111111111111.mp3".toList, "111111111111ffff.mp3".toList,
   "111111111111ffff.mp3".toList]

/-- A directory with no `.mp3` files at all. -/
def dirTxt : Dir := [("notes.txt".toList, [])]

/-- Invariant satisfied, mid-run, by every name already appended to the
`filenames` accumulator: either it is a conforming (12-hex-char) `.mp3` name
still present in the directory, or it is a 16-hex-char fallback name whose
current content has exactly that digest and whose 12-character candidate name
is also present in the directory. -/
def EntryOK (d : Dir) (e : Name) : Prop :=
  (is_already_hashed e = true ∧ e ∈ fileNames d ∧ matchesMp3 e = true)
  ∨ (∃ C, lookupName e d = some C ∧ ValidDigest C ∧
      e = C.take (HASH_LEN + 4) ++ mp3Ext ∧
      (C.take HASH_LEN ++ mp3Ext) ∈ fileNames d)

/-! Properties of the lexicographic order on names. -/

theorem lexLe_refl : ∀ a : List Char, lexLe a a = true
  | [] => rfl
  | a :: as => by simp [lexLe, lt_irrefl, lexLe_refl as]

theorem lexLe_total : ∀ a b : List Char, lexLe a b = true ∨ lexLe b a = true
  | [], _ => Or.inl rfl
  | _ :: _, [] => Or.inr rfl
  | a :: as, b :: bs => by
    rcases lt_trichotomy a b with h | h | h
    · left; simp [lexLe, h]
    · subst h
      rcases lexLe_total as bs with ih | ih
      · left; simp [lexLe, lt_irrefl, ih]
      · right; simp [lexLe, lt_irrefl, ih]
    · right; simp [lexLe, h]

theorem lexLe_trans : ∀ a b c : List Char,
    lexLe a b = true → lexLe b c = true → lexLe a c = true
  | [], _, _ => fun _ _ => rfl
  | _ :: _, [], _ => by simp [lexLe]
  | _ :: _, _ :: _, [] => by simp [lexLe]
  | a :: as, b :: bs, c :: cs => by
    intro h1 h2
    by_cases hab : a < b
    · by_cases hbc : b < c
      · simp [lexLe, lt_trans hab hbc]
      · by_cases hcb : c < b
        · simp [lexLe, hbc, hcb] at h2
        · have hbc' : b = c := le_antisymm (not_lt.mp hcb) (not_lt.mp hbc)
          subst hbc'
          simp [lexLe, hab]
    · by_cases hba : b < a
      · simp [lexLe, hab, hba] at h1
      · have hab' : a = b := le_antisymm (not_lt.mp hba) (not_lt.mp hab)
        subst hab'
        simp only [lexLe, if_neg (lt_irrefl a)] at h1
        by_cases hac : a < c
        · simp [lexLe, hac]
        · by_cases hca : c < a
          · simp [lexLe, hac, hca] at h2
          · have hac' : a = c := le_antisymm (not_lt.mp hca) (not_lt.mp hac)
            subst hac'
            simp only [lexLe, if_neg (lt_irrefl a)] at h2 ⊢
            exact lexLe_trans as bs cs h1 h2

theorem lexLe_antisymm : ∀ a b : List Char,
    lexLe a b = true → lexLe b a = true → a = b
  | [], [] => fun _ _ => rfl
  | [], _ :: _ => by simp [lexLe]
  | _ :: _, [] => by simp [lexLe]
  | a :: as, b :: bs => by
    intro h1 h2
    rcases lt_trichotomy a b with h | h | h
    · simp [lexLe, h, lt_asymm h] at h2
    · subst h
      simp only [lexLe, if_neg (lt_irrefl a)] at h1 h2
      rw [lexLe_antisymm as bs h1 h2]
    · simp [lexLe, h, lt_asymm h] at h1

instance : IsTotal Name nameLe := ⟨lexLe_total⟩

instance : IsTrans Name nameLe := ⟨lexLe_trans⟩

instance : IsAntisymm Name nameLe := ⟨lexLe_antisymm⟩

theorem lexLe_append_same : ∀ (s t u : List Char),
    lexLe (s ++ t) (s ++ u) = lexLe t u
  | [], _, _ => rfl
  | a :: s, t, u => by simp [lexLe, lt_irrefl, lexLe_append_same s t u]

/-! Lookup and membership lemmas. -/

theorem fileNames_cons (e : Name × Digest) (d : Dir) :
    fileNames (e :: d) = e.1 :: fileNames d := rfl

theorem lookupName_isSome {n : Name} :
    ∀ {d : Dir}, (lookupName n d).isSome = true ↔ n ∈ fileNames d
  | [] => by simp [lookupName, fileNames]
  | e :: d => by
    by_cases h : e.1 = n
    · simp [lookupName, h, fileNames_cons]
    · have h' : ¬ n = e.1 := fun hn => h hn.symm
      simp [lookupName, h, h', fileNames_cons, @lookupName_isSome n d]

theorem lookupName_mem {n : Name} {c : Digest} :
    ∀ {d : Dir}, lookupName n d = some c → (n, c) ∈ d
  | [], h => by simp [lookupName] at h
  | (a, b) :: d, h => by
    by_cases he : a = n
    · subst he
      simp only [lookupName, if_pos rfl] at h
      obtain rfl := Option.some.inj h
      exact List.mem_cons_self _ _
    · simp only [lookupName, he, if_false, if_neg he] at h
      exact List.mem_cons_of_mem _ (lookupName_mem h)

theorem mem_fileNames_lookup {n : Name} {d : Dir} (h : n ∈ fileNames d) :
    ∃ c, lookupName n d = some c := by
  have := lookupName_isSome.mpr h
  exact Option.isSome_iff_exists.mp this

theorem existsIn_iff {d : Dir} {n : Name} :
    existsIn d n = true ↔ n ∈ fileNames d := by
  unfold existsIn
  exact lookupName_isSome

theorem mem_of_lookupName {n : Name} {c : Digest} {d : Dir}
    (h : lookupName n d = some c) : n ∈ fileNames d :=
  lookupName_isSome.mp (by simp [h])

/-! Shape of the ".mp3" extension and the glob test. -/

theorem mp3Ext_eq : mp3Ext = '.' :: 'm' :: 'p' :: '3' :: [] := rfl

theorem matchesMp3_append (s : List Char) : matchesMp3 (s ++ mp3Ext) = true := by
  have h1 : (s ++ mp3Ext).length - 4 = s.length := by
    simp [mp3Ext_eq]
  unfold matchesMp3
  rw [h1, List.drop_left]
  simp

theorem matchesMp3_shape {e : Name} (h : matchesMp3 e = true) :
    e = e.take (e.length - 4) ++ mp3Ext := by
  have h' : e.drop (e.length - 4) = mp3Ext := by
    simpa [matchesMp3] using h
  conv_lhs => rw [← List.take_append_drop (e.length - 4) e]
  rw [h']

/-! Stem computation lemmas. -/

theorem rfindDot_of_dotfree : ∀ {t : List Char}, (∀ c ∈ t, c ≠ '.') →
    rfindDot t = none
  | [], _ => rfl
  | c :: cs, h => by
    have ht : rfindDot cs = none :=
      rfindDot_of_dotfree (fun x hx => h x (List.mem_cons_of_mem _ hx))
    simp [rfindDot, ht, h c (List.mem_cons_self c cs)]

theorem rfindDot_append_dot : ∀ (s : List Char) {t : List Char},
    (∀ c ∈ t, c ≠ '.') → rfindDot (s ++ '.' :: t) = some s.length
  | [], t, h => by simp [rfindDot, rfindDot_of_dotfree h]
  | c :: s, t, h => by
    simp [rfindDot, rfindDot_append_dot s h, List.length_cons]

theorem mp3tail_dotfree : ∀ c ∈ ('m' :: 'p' :: '3' :: []), c ≠ '.' := by decide

theorem stemOf_append_ext {s : List Char} (hs : s ≠ []) :
    stemOf (s ++ mp3Ext) = s := by
  have hfind : rfindDot (s ++ mp3Ext) = some s.length := by
    rw [mp3Ext_eq]
    exact rfindDot_append_dot s mp3tail_dotfree
  have hpos : 0 < s.length := List.length_pos.mpr hs
  have hlen : (s ++ mp3Ext).length = s.length + 4 := by simp [mp3Ext_eq]
  unfold stemOf
  rw [hfind]
  show (if 0 < s.length ∧ s.length < (s ++ mp3Ext).length - 1
      then List.take s.length (s ++ mp3Ext) else s ++ mp3Ext) = s
  rw [hlen]
  rw [if_pos (show 0 < s.length ∧ s.length < s.length + 4 - 1 by omega)]
  exact List.take_left s mp3Ext

theorem is_already_hashed_append_ext {s : List Char} (hs : s ≠ []) :
    is_already_hashed (s ++ mp3Ext)
      = ((s.length == HASH_LEN) && s.all (fun c => decide (c ∈ hexDigits))) := by
  unfold is_already_hashed
  rw [stemOf_append_ext hs]

theorem hashed_of_conform12 {s : List Char} (hlen : s.length = HASH_LEN)
    (hhex : ∀ c ∈ s, c ∈ hexDigits) :
    is_already_hashed (s ++ mp3Ext) = true := by
  have hs : s ≠ [] := by
    intro h
    rw [h] at hlen
    simp [HASH_LEN] at hlen
  rw [is_already_hashed_append_ext hs]
  simp [hlen, List.all_eq_true]
  exact hhex

theorem not_hashed_of_len16 {s : List Char} (hlen : s.length = HASH_LEN + 4) :
    is_already_hashed (s ++ mp3Ext) = false := by
  have hs : s ≠ [] := by
    intro h
    rw [h] at hlen
    simp [HASH_LEN] at hlen
  rw [is_already_hashed_append_ext hs]
  simp [hlen, HASH_LEN]

theorem conform_of_hashed {e : Name} (hm : matchesMp3 e = true)
    (hh : is_already_hashed e = true) : Conforms HASH_LEN e := by
  have he := matchesMp3_shape hm
  set s := e.take (e.length - 4) with hsdef
  by_cases hs : s = []
  · rw [hs] at he
    rw [he] at hh
    simp only [List.nil_append] at hh
    have : is_already_hashed mp3Ext = false := by decide
    rw [this] at hh
    cases hh
  · rw [he] at hh
    rw [is_already_hashed_append_ext hs] at hh
    simp only [Bool.and_eq_true, beq_iff_eq, List.all_eq_true,
      decide_eq_true_eq] at hh
    exact ⟨s, he, hh.1, hh.2⟩

/-! Facts about valid digests and candidate names. -/

theorem hex_gt_dot : ∀ c ∈ hexDigits, '.' < c := by decide

theorem validDigest_take_props {C : Digest} (h : ValidDigest C) (k : Nat)
    (hk : k ≤ 64) : (C.take k).length = k ∧ ∀ c ∈ C.take k, c ∈ hexDigits := by
  constructor
  · rw [List.length_take, h.1]
    omega
  · intro c hc
    exact h.2 c (List.take_subset k C hc)

theorem hashed_cand12 {C : Digest} (h : ValidDigest C) :
    is_already_hashed (C.take HASH_LEN ++ mp3Ext) = true := by
  have hp := validDigest_take_props h HASH_LEN (by norm_num [HASH_LEN])
  exact hashed_of_conform12 hp.1 hp.2

theorem not_hashed_cand16 {C : Digest} (h : ValidDigest C) :
    is_already_hashed (C.take (HASH_LEN + 4) ++ mp3Ext) = false := by
  have hp := validDigest_take_props h (HASH_LEN + 4) (by norm_num [HASH_LEN])
  exact not_hashed_of_len16 hp.1

theorem ne_of_length_ne {a b : List Char} (h : a.length ≠ b.length) : a ≠ b :=
  fun hab => h (congrArg List.length hab)

theorem cand12_ne_cand16 {C C' : Digest} (h : ValidDigest C)
    (h' : ValidDigest C') :
    C.take HASH_LEN ++ mp3Ext ≠ C'.take (HASH_LEN + 4) ++ mp3Ext := by
  apply ne_of_length_ne
  have h1 := (validDigest_take_props h HASH_LEN (by norm_num [HASH_LEN])).1
  have h2 := (validDigest_take_props h' (HASH_LEN + 4) (by norm_num [HASH_LEN])).1
  simp only [List.length_append, h1, h2]
  norm_num [HASH_LEN]

/-! Lemmas about renames. -/

theorem renameFile_self (d : Dir) (src : Name) : renameFile d src src = d := by
  simp [renameFile]

theorem renameFile_eq_of_ne {d : Dir} {src dst : Name} (h : src ≠ dst) :
    renameFile d src dst
      = (d.filter (fun e => decide (e.1 ≠ dst))).map
          (fun e => if e.1 = src then (dst, e.2) else e) := by
  simp [renameFile, h]

theorem mem_fileNames {d : Dir} {m : Name} :
    m ∈ fileNames d ↔ ∃ c, (m, c) ∈ d := by
  unfold fileNames
  constructor
  · intro h
    obtain ⟨⟨a, b⟩, he, rfl⟩ := List.mem_map.mp h
    exact ⟨b, he⟩
  · rintro ⟨c, hc⟩
    exact List.mem_map.mpr ⟨(m, c), hc, rfl⟩

theorem fst_mem_fileNames {d : Dir} {e : Name × Digest} (he : e ∈ d) :
    e.1 ∈ fileNames d :=
  List.mem_map.mpr ⟨e, he, rfl⟩

theorem dst_mem_renameFile {d : Dir} {src dst : Name}
    (hsrc : src ∈ fileNames d) : dst ∈ fileNames (renameFile d src dst) := by
  by_cases hsd : src = dst
  · subst hsd
    rw [renameFile_self]
    exact hsrc
  · rw [renameFile_eq_of_ne hsd]
    obtain ⟨c, hc⟩ := mem_fileNames.mp hsrc
    apply mem_fileNames.mpr
    refine ⟨c, List.mem_map.mpr ⟨(src, c), List.mem_filter.mpr ⟨hc, ?_⟩, ?_⟩⟩
    · simp [hsd]
    · simp

theorem mem_fileNames_renameFile {d : Dir} {src dst m : Name}
    (hsrc : src ∈ fileNames d) (hm : m ∈ fileNames d) (hms : m ≠ src) :
    m ∈ fileNames (renameFile d src dst) := by
  by_cases hsd : src = dst
  · subst hsd
    rw [renameFile_self]
    exact hm
  · by_cases hmd : m = dst
    · subst hmd
      exact dst_mem_renameFile hsrc
    · rw [renameFile_eq_of_ne hsd]
      obtain ⟨c, hc⟩ := mem_fileNames.mp hm
      apply mem_fileNames.mpr
      refine ⟨c, List.mem_map.mpr ⟨(m, c), List.mem_filter.mpr ⟨hc, ?_⟩, ?_⟩⟩
      · simp [hmd]
      · simp [hms]

theorem lookupName_renameFile_dst {d : Dir} {src dst : Name}
    (hsrc : src ∈ fileNames d) :
    lookupName dst (renameFile d src dst) = lookupName src d := by
  by_cases hsd : src = dst
  · subst hsd
    rw [renameFile_self]
  · rw [renameFile_eq_of_ne hsd]
    induction d with
    | nil => simp [fileNames] at hsrc
    | cons e d ih =>
      by_cases hes : e.1 = src
      · have hed : ¬ e.1 = dst := by
          rw [hes]
          exact hsd
        simp [List.filter_cons, hed, hes, hsd, lookupName]
      · have hsrc' : src ∈ fileNames d := by
          rcases List.mem_cons.mp (by simpa [fileNames_cons] using hsrc)
            with h | h
          · exact absurd h.symm hes
          · exact h
        by_cases hed : e.1 = dst
        · simp only [List.filter_cons, hed]
          simpa [lookupName, hes] using ih hsrc'
        · have hde : ¬ dst = e.1 := fun h => hed h.symm
          simp only [List.filter_cons]
          simpa [lookupName, hed, hes, hde] using ih hsrc' 

theorem lookupName_renameFile_other {d : Dir} {src dst m : Name}
    (hms : m ≠ src) (hmd : m ≠ dst) :
    lookupName m (renameFile d src dst) = lookupName m d := by
  by_cases hsd : src = dst
  · subst hsd
    rw [renameFile_self]
  · rw [renameFile_eq_of_ne hsd]
    induction d with
    | nil => simp [lookupName]
    | cons e d ih =>
      by_cases hed : e.1 = dst
      · have hem : ¬ e.1 = m := by
          rw [hed]
          exact fun h => hmd h.symm
        simp only [List.filter_cons, hed]
        simpa [lookupName, hem] using ih
      · by_cases hes : e.1 = src
        · have h1 : ¬ dst = m := fun h => hmd h.symm
          have h2 : ¬ e.1 = m := by
            rw [hes]
            exact fun h => hms h.symm
          have hsm : ¬ src = m := fun h => hms h.symm
          simp only [List.filter_cons]
          simpa [lookupName, hed, hes, hsd, h1, h2, hsm] using ih
        · by_cases hem : e.1 = m
          · simp [List.filter_cons, hed, hes, lookupName, hem, hmd, hms, ih]
          · simp only [List.filter_cons]
            simpa [lookupName, hed, hes, hem] using ih

theorem fileNames_renameFile_of_ne {d : Dir} {src dst : Name} (h : src ≠ dst) :
    fileNames (renameFile d src dst)
      = ((fileNames d).filter (fun m => decide (m ≠ dst))).map
          (fun m => if m = src then dst else m) := by
  rw [renameFile_eq_of_ne h]
  unfold fileNames
  rw [List.filter_map, List.map_map, List.map_map]
  have hpq : ((fun m : Name => decide (m ≠ dst)) ∘ Prod.fst)
      = (fun e : Name × Digest => decide (e.1 ≠ dst)) := rfl
  rw [hpq]
  apply List.map_congr_left
  intro e _
  simp only [Function.comp_apply, apply_ite Prod.fst]

theorem nodupNames_renameFile {d : Dir} {src dst : Name} (h : NodupNames d) :
    NodupNames (renameFile d src dst) := by
  by_cases hsd : src = dst
  · subst hsd
    rwa [renameFile_self]
  · unfold NodupNames
    rw [fileNames_renameFile_of_ne hsd]
    have hf : ((fileNames d).filter (fun m => decide (m ≠ dst))).Nodup :=
      List.Nodup.filter _ h
    apply List.Nodup.map_on _ hf
    intro x hx y hy hxy
    have hxd : x ≠ dst := by
      simpa using (List.mem_filter.mp hx).2
    have hyd : y ≠ dst := by
      simpa using (List.mem_filter.mp hy).2
    by_cases hxs : x = src
    · by_cases hys : y = src
      · rw [hxs, hys]
      · rw [if_pos hxs, if_neg hys] at hxy
        exact absurd hxy.symm hyd
    · by_cases hys : y = src
      · rw [if_neg hxs, if_pos hys] at hxy
        exact absurd hxy hxd
      · rwa [if_neg hxs, if_neg hys] at hxy

theorem validDigests_renameFile {d : Dir} {src dst : Name}
    (h : ValidDigests d) : ValidDigests (renameFile d src dst) := by
  by_cases hsd : src = dst
  · subst hsd
    rwa [renameFile_self]
  · rw [renameFile_eq_of_ne hsd]
    intro e' he'
    obtain ⟨e, he, rfl⟩ := List.mem_map.mp he'
    have hed : e ∈ d := (List.mem_filter.mp he).1
    by_cases hes : e.1 = src
    · rw [if_pos hes]
      exact h e hed
    · rw [if_neg hes]
      exact h e hed

theorem renameFile_of_not_mem {d : Dir} {src dst : Name}
    (hs : src ∉ fileNames d) (hd : dst ∉ fileNames d) :
    renameFile d src dst = d := by
  by_cases hsd : src = dst
  · subst hsd
    exact renameFile_self d src
  · rw [renameFile_eq_of_ne hsd]
    have hfilter : d.filter (fun e => decide (e.1 ≠ dst)) = d := by
      apply List.filter_eq_self.mpr
      intro e he
      simp only [ne_eq, decide_eq_true_eq]
      intro hc
      exact hd (hc ▸ fst_mem_fileNames he)
    rw [hfilter]
    have hmap : ∀ e ∈ d, (if e.1 = src then (dst, e.2) else e) = e := by
      intro e he
      rw [if_neg]
      intro hc
      exact hs (hc ▸ fst_mem_fileNames he)
    rw [List.map_congr_left hmap]
    simp

theorem mp3Names_cons_pos {e : Name × Digest} {d : Dir}
    (h : matchesMp3 e.1 = true) : mp3Names (e :: d) = e.1 :: mp3Names d := by
  simp [mp3Names, fileNames_cons, List.filter_cons, h]

theorem mp3Names_cons_neg {e : Name × Digest} {d : Dir}
    (h : matchesMp3 e.1 = false) : mp3Names (e :: d) = mp3Names d := by
  simp [mp3Names, fileNames_cons, List.filter_cons, h]

theorem mp3Names_renameFile_perm {d : Dir} {src dst : Name}
    (hnd : NodupNames d) (hsrc : src ∈ fileNames d) (hdst : dst ∉ fileNames d)
    (hmsrc : matchesMp3 src = true) (hmdst : matchesMp3 dst = true) :
    (mp3Names (renameFile d src dst)).Perm (dst :: (mp3Names d).erase src) := by
  induction d with
  | nil => simp [fileNames] at hsrc
  | cons e d ih =>
    have hsd : src ≠ dst := fun h => hdst (h ▸ hsrc)
    have hed : e.1 ≠ dst := fun h => hdst (by
      rw [fileNames_cons, ← h]
      exact List.mem_cons_self _ _)
    have hdst0 : dst ∉ fileNames d := fun h => hdst (by
      rw [fileNames_cons]
      exact List.mem_cons_of_mem _ h)
    have hnd' := List.nodup_cons.mp (by simpa [NodupNames, fileNames_cons] using hnd)
    have hhead : e.1 ∉ fileNames d := hnd'.1
    have hnd0 : NodupNames d := hnd'.2
    by_cases hes : e.1 = src
    · have hsrc0 : src ∉ fileNames d := hes ▸ hhead
      have h1 : renameFile (e :: d) src dst
          = (dst, e.2) :: renameFile d src dst := by
        rw [renameFile_eq_of_ne hsd, renameFile_eq_of_ne hsd]
        simp [List.filter_cons, hed, hes, hsd]
      rw [h1, renameFile_of_not_mem hsrc0 hdst0]
      rw [mp3Names_cons_pos (show matchesMp3 (dst, e.2).1 = true from hmdst)]
      rw [mp3Names_cons_pos (show matchesMp3 e.1 = true by rw [hes]; exact hmsrc)]
      rw [hes, List.erase_cons_head]
    · have hsrc0 : src ∈ fileNames d := by
        rcases List.mem_cons.mp (by simpa [fileNames_cons] using hsrc) with h | h
        · exact absurd h.symm hes
        · exact h
      have h1 : renameFile (e :: d) src dst = e :: renameFile d src dst := by
        rw [renameFile_eq_of_ne hsd, renameFile_eq_of_ne hsd]
        simp [List.filter_cons, hed, hes]
      rw [h1]
      have ih' := ih hnd0 hsrc0 hdst0
      by_cases hme : matchesMp3 e.1 = true
      · rw [mp3Names_cons_pos hme, mp3Names_cons_pos hme]
        rw [List.erase_cons_tail (by simp [hes])]
        exact (ih'.cons e.1).trans (List.Perm.swap dst e.1 _)
      · have hme' : matchesMp3 e.1 = false := by simpa using hme
        rw [mp3Names_cons_neg hme', mp3Names_cons_neg hme']
        exact ih'

/-! Lemmas about the main loop. -/

theorem processFile_hashed {st : LoopState} {n : Name}
    (h : is_already_hashed n = true) :
    processFile st n = some ⟨st.dir, st.filenames ++ [n], st.renamed⟩ := by
  simp [processFile, h]

theorem processFile_rename_fresh {st : LoopState} {n : Name} {dig : Digest}
    (hn : is_already_hashed n = false)
    (hl : lookupName n st.dir = some dig)
    (hni : ¬ (existsIn st.dir (dig.take HASH_LEN ++ mp3Ext) = true
      ∧ dig.take HASH_LEN ++ mp3Ext ≠ n)) :
    processFile st n
      = some ⟨renameFile st.dir n (dig.take HASH_LEN ++ mp3Ext),
          st.filenames ++ [dig.take HASH_LEN ++ mp3Ext], st.renamed + 1⟩ := by
  simp only [processFile, hn, Bool.false_eq_true, if_false, sha256_of_file, hl]
  rw [if_neg hni]

theorem processFile_rename_coll {st : LoopState} {n : Name} {dig : Digest}
    (hn : is_already_hashed n = false)
    (hl : lookupName n st.dir = some dig)
    (hc : existsIn st.dir (dig.take HASH_LEN ++ mp3Ext) = true
      ∧ dig.take HASH_LEN ++ mp3Ext ≠ n) :
    processFile st n
      = some ⟨renameFile st.dir n (dig.take (HASH_LEN + 4) ++ mp3Ext),
          st.filenames ++ [dig.take (HASH_LEN + 4) ++ mp3Ext],
          st.renamed + 1⟩ := by
  simp only [processFile, hn, Bool.false_eq_true, if_false, sha256_of_file, hl]
  rw [if_pos hc]

theorem runLoop_cons_of_some {st st2 : LoopState} {n : Name} {rest : List Name}
    (h : processFile st n = some st2) :
    runLoop st (n :: rest) = runLoop st2 rest := by
  simp [runLoop, h]

theorem runLoop_cons_of_none {st : LoopState} {n : Name} {rest : List Name}
    (h : processFile st n = none) :
    runLoop st (n :: rest) = Except.error st := by
  simp [runLoop, h]

theorem runLoop_passthrough : ∀ (ns : List Name) (st : LoopState),
    (∀ n ∈ ns, is_already_hashed n = true) →
    runLoop st ns = Except.ok ⟨st.dir, st.filenames ++ ns, st.renamed⟩
  | [], st, _ => by simp [runLoop]
  | n :: rest, st, h => by
    rw [runLoop_cons_of_some (processFile_hashed (h n (List.mem_cons_self n rest)))]
    rw [runLoop_passthrough rest _ (fun m hm => h m (List.mem_cons_of_mem n hm))]
    simp

theorem processFile_filenames_length {st st2 : LoopState} {n : Name}
    (h : processFile st n = some st2) :
    st2.filenames.length = st.filenames.length + 1 := by
  unfold processFile at h
  split at h
  · obtain rfl := Option.some.inj h
    simp
  · split at h
    · exact Option.noConfusion h
    · obtain rfl := Option.some.inj h
      simp

theorem runLoop_length : ∀ (ns : List Name) (st st' : LoopState),
    runLoop st ns = Except.ok st' →
    st'.filenames.length = st.filenames.length + ns.length
  | [], st, st', h => by
    obtain rfl := Except.ok.inj h
    simp
  | n :: rest, st, st', h => by
    cases hp : processFile st n with
    | none =>
      rw [runLoop_cons_of_none hp] at h
      exact Except.noConfusion h
    | some st2 =>
      rw [runLoop_cons_of_some hp] at h
      have h2 := runLoop_length rest st2 st' h
      rw [h2, processFile_filenames_length hp]
      simp only [List.length_cons]
      omega

theorem perm_cons_erase_self {a : Name} : ∀ {l : List Name},
    a ∈ l → l.Perm (a :: l.erase a)
  | b :: l, h => by
    by_cases hba : b = a
    · subst hba
      rw [List.erase_cons_head]
    · rw [List.erase_cons_tail (by simp [hba])]
      have ha' : a ∈ l := by
        rcases List.mem_cons.mp h with h | h
        · exact absurd h.symm hba
        · exact h
      exact ((perm_cons_erase_self ha').cons b).trans (List.Perm.swap a b _)

theorem perm_erase_cons {l : List Name} {a : Name} {m : List Name}
    (h : l.Perm (a :: m)) : (l.erase a).Perm m := by
  have ha : a ∈ l := h.symm.subset (List.mem_cons_self a m)
  have h2 := (perm_cons_erase_self ha).symm.trans h
  exact h2.cons_inv

theorem hashed_ne_of_not {e n : Name} (he : is_already_hashed e = true)
    (hn : is_already_hashed n = false) : e ≠ n := fun h => by
  rw [h, hn] at he
  exact Bool.noConfusion he

/-- Master invariant of the main loop: processing a duplicate-free list of
names that are present in the directory keeps the directory duplicate-free
with valid digests, never raises, keeps every recorded filename `EntryOK`,
and either the recorded filenames are a permutation of the directory's
`.mp3` names or some recorded filename is a non-conforming (fallback)
name. -/
theorem runLoop_master : ∀ (ns : List Name) (st : LoopState),
    ns.Nodup →
    NodupNames st.dir →
    ValidDigests st.dir →
    (∀ n ∈ ns, n ∈ fileNames st.dir ∧ matchesMp3 n = true) →
    (∀ e ∈ st.filenames, EntryOK st.dir e) →
    ((mp3Names st.dir).Perm (st.filenames ++ ns) ∨
      ∃ e ∈ st.filenames, is_already_hashed e = false) →
    ∃ st', runLoop st ns = Except.ok st' ∧
      NodupNames st'.dir ∧ ValidDigests st'.dir ∧
      (∀ e ∈ st'.filenames, EntryOK st'.dir e) ∧
      ((mp3Names st'.dir).Perm st'.filenames ∨
        ∃ e ∈ st'.filenames, is_already_hashed e = false)
  | [], st => fun _ hnd hv _ hent hperm =>
    ⟨st, rfl, hnd, hv, hent, by simpa using hperm⟩
  | n :: rest, st => fun hnodup hnd hv hns hent hperm => by
    obtain ⟨hmemn, hmatchn⟩ := hns n (List.mem_cons_self _ _)
    have hnodup' := List.nodup_cons.mp hnodup
    by_cases hn : is_already_hashed n = true
    · -- conforming name: passed through unchanged
      have hns' : ∀ m ∈ rest,
          m ∈ fileNames st.dir ∧ matchesMp3 m = true :=
        fun m hm => hns m (List.mem_cons_of_mem _ hm)
      have hent' : ∀ e ∈ st.filenames ++ [n], EntryOK st.dir e := by
        intro e he
        rcases List.mem_append.mp he with he | he
        · exact hent e he
        · obtain rfl := List.mem_singleton.mp he
          exact Or.inl ⟨hn, hmemn, hmatchn⟩
      have hperm' : (mp3Names st.dir).Perm ((st.filenames ++ [n]) ++ rest) ∨
          ∃ e ∈ st.filenames ++ [n], is_already_hashed e = false := by
        rcases hperm with hp | ⟨e, he, hf⟩
        · left
          simpa using hp
        · exact Or.inr ⟨e, List.mem_append_left _ he, hf⟩
      obtain ⟨st', hrun, h1, h2, h3, h4⟩ :=
        runLoop_master rest ⟨st.dir, st.filenames ++ [n], st.renamed⟩
          hnodup'.2 hnd hv hns' hent' hperm'
      refine ⟨st', ?_, h1, h2, h3, h4⟩
      rw [runLoop_cons_of_some (processFile_hashed hn)]
      exact hrun
    · -- non-conforming: hash and rename
      have hnf : is_already_hashed n = false := by simpa using hn
      obtain ⟨C, hC⟩ := mem_fileNames_lookup hmemn
      have hCv : ValidDigest C := hv (n, C) (lookupName_mem hC)
      have hcand_h : is_already_hashed (C.take HASH_LEN ++ mp3Ext) = true :=
        hashed_cand12 hCv
      have hcand_ne : C.take HASH_LEN ++ mp3Ext ≠ n :=
        hashed_ne_of_not hcand_h hnf
      have hcand_m : matchesMp3 (C.take HASH_LEN ++ mp3Ext) = true :=
        matchesMp3_append _
      have hrestmem : ∀ m ∈ rest, m ≠ n := fun m hm heq =>
        hnodup'.1 (heq ▸ hm)
      by_cases hex : existsIn st.dir (C.take HASH_LEN ++ mp3Ext) = true
      · -- collision: fall back to the 16-character name
        have hcand_mem : C.take HASH_LEN ++ mp3Ext ∈ fileNames st.dir :=
          existsIn_iff.mp hex
        have hfin_nh :
            is_already_hashed (C.take (HASH_LEN + 4) ++ mp3Ext) = false :=
          not_hashed_cand16 hCv
        have hstep := processFile_rename_coll hnf hC ⟨hex, hcand_ne⟩
        by_cases hfn : C.take (HASH_LEN + 4) ++ mp3Ext = n
        · -- renaming the file onto itself: directory unchanged
          have hdir : renameFile st.dir n (C.take (HASH_LEN + 4) ++ mp3Ext)
              = st.dir := by
            rw [hfn, renameFile_self]
          have hns' : ∀ m ∈ rest,
              m ∈ fileNames st.dir ∧ matchesMp3 m = true :=
            fun m hm => hns m (List.mem_cons_of_mem _ hm)
          have hent' : ∀ e ∈ st.filenames ++ [C.take (HASH_LEN + 4) ++ mp3Ext],
              EntryOK st.dir e := by
            intro e he
            rcases List.mem_append.mp he with he | he
            · exact hent e he
            · obtain rfl := List.mem_singleton.mp he
              exact Or.inr ⟨C, hfn.symm ▸ hC, hCv, rfl, hcand_mem⟩
          have hperm' :
              (mp3Names st.dir).Perm
                ((st.filenames ++ [C.take (HASH_LEN + 4) ++ mp3Ext]) ++ rest) ∨
              ∃ e ∈ st.filenames ++ [C.take (HASH_LEN + 4) ++ mp3Ext],
                is_already_hashed e = false :=
            Or.inr ⟨C.take (HASH_LEN + 4) ++ mp3Ext,
              List.mem_append_right _ (List.mem_singleton.mpr rfl), hfin_nh⟩
          obtain ⟨st', hrun, h1, h2, h3, h4⟩ :=
            runLoop_master rest
              ⟨st.dir, st.filenames ++ [C.take (HASH_LEN + 4) ++ mp3Ext],
                st.renamed + 1⟩
              hnodup'.2 hnd hv hns' hent' hperm'
          refine ⟨st', ?_, h1, h2, h3, h4⟩
          rw [runLoop_cons_of_some hstep, hdir]
          exact hrun
        · -- renaming to a fresh-or-overwritten 16-character name
          have hnd2 : NodupNames
              (renameFile st.dir n (C.take (HASH_LEN + 4) ++ mp3Ext)) :=
            nodupNames_renameFile hnd
          have hv2 : ValidDigests
              (renameFile st.dir n (C.take (HASH_LEN + 4) ++ mp3Ext)) :=
            validDigests_renameFile hv
          have hkeep : ∀ m, m ∈ fileNames st.dir → m ≠ n →
              m ∈ fileNames
                (renameFile st.dir n (C.take (HASH_LEN + 4) ++ mp3Ext)) :=
            fun m hm hmn => mem_fileNames_renameFile hmemn hm hmn
          have hfin_lookup :
              lookupName (C.take (HASH_LEN + 4) ++ mp3Ext)
                (renameFile st.dir n (C.take (HASH_LEN + 4) ++ mp3Ext))
              = some C := by
            rw [lookupName_renameFile_dst hmemn]
            exact hC
          have hcand_mem2 : C.take HASH_LEN ++ mp3Ext ∈ fileNames
              (renameFile st.dir n (C.take (HASH_LEN + 4) ++ mp3Ext)) :=
            hkeep _ hcand_mem hcand_ne
          have hns' : ∀ m ∈ rest,
              m ∈ fileNames
                (renameFile st.dir n (C.take (HASH_LEN + 4) ++ mp3Ext))
              ∧ matchesMp3 m = true := by
            intro m hm
            obtain ⟨hm1, hm2⟩ := hns m (List.mem_cons_of_mem _ hm)
            exact ⟨hkeep m hm1 (hrestmem m hm), hm2⟩
          have hent' : ∀ e ∈ st.filenames ++ [C.take (HASH_LEN + 4) ++ mp3Ext],
              EntryOK (renameFile st.dir n (C.take (HASH_LEN + 4) ++ mp3Ext))
                e := by
            intro e he
            rcases List.mem_append.mp he with he | he
            · rcases hent e he with ⟨hh, hm, hmm⟩ | ⟨C', hC'l, hC'v, hC'e, hC'c⟩
              · exact Or.inl ⟨hh, hkeep e hm (hashed_ne_of_not hh hnf), hmm⟩
              · have hen : e ≠ n := by
                  intro heq
                  rw [heq, hC] at hC'l
                  obtain rfl := Option.some.inj hC'l
                  exact hfn (heq ▸ hC'e.symm)
                by_cases hef : e = C.take (HASH_LEN + 4) ++ mp3Ext
                · refine Or.inr ⟨C, ?_, hCv, hef, hcand_mem2⟩
                  rw [hef]
                  exact hfin_lookup
                · refine Or.inr ⟨C', ?_, hC'v, hC'e, ?_⟩
                  · rw [lookupName_renameFile_other hen hef]
                    exact hC'l
                  · exact hkeep _ hC'c
                      (hashed_ne_of_not (hashed_cand12 hC'v) hnf)
            · obtain rfl := List.mem_singleton.mp he
              exact Or.inr ⟨C, hfin_lookup, hCv, rfl, hcand_mem2⟩
          have hperm' :
              (mp3Names
                (renameFile st.dir n (C.take (HASH_LEN + 4) ++ mp3Ext))).Perm
                ((st.filenames ++ [C.take (HASH_LEN + 4) ++ mp3Ext]) ++ rest) ∨
              ∃ e ∈ st.filenames ++ [C.take (HASH_LEN + 4) ++ mp3Ext],
                is_already_hashed e = false :=
            Or.inr ⟨C.take (HASH_LEN + 4) ++ mp3Ext,
              List.mem_append_right _ (List.mem_singleton.mpr rfl), hfin_nh⟩
          obtain ⟨st', hrun, h1, h2, h3, h4⟩ :=
            runLoop_master rest
              ⟨renameFile st.dir n (C.take (HASH_LEN + 4) ++ mp3Ext),
                st.filenames ++ [C.take (HASH_LEN + 4) ++ mp3Ext],
                st.renamed + 1⟩
              hnodup'.2 hnd2 hv2 hns' hent' hperm'
          refine ⟨st', ?_, h1, h2, h3, h4⟩
          rw [runLoop_cons_of_some hstep]
          exact hrun
      · -- no collision: rename to the fresh 12-character name
        have hexf : ¬ (existsIn st.dir (C.take HASH_LEN ++ mp3Ext) = true) := hex
        have hcand_notmem : C.take HASH_LEN ++ mp3Ext ∉ fileNames st.dir :=
          fun h => hexf (existsIn_iff.mpr h)
        have hstep := processFile_rename_fresh hnf hC
          (fun hcontra => hexf hcontra.1)
        have hnd2 : NodupNames
            (renameFile st.dir n (C.take HASH_LEN ++ mp3Ext)) :=
          nodupNames_renameFile hnd
        have hv2 : ValidDigests
            (renameFile st.dir n (C.take HASH_LEN ++ mp3Ext)) :=
          validDigests_renameFile hv
        have hkeep : ∀ m, m ∈ fileNames st.dir → m ≠ n →
            m ∈ fileNames (renameFile st.dir n (C.take HASH_LEN ++ mp3Ext)) :=
          fun m hm hmn => mem_fileNames_renameFile hmemn hm hmn
        have hcand_mem2 : C.take HASH_LEN ++ mp3Ext ∈ fileNames
            (renameFile st.dir n (C.take HASH_LEN ++ mp3Ext)) :=
          dst_mem_renameFile hmemn
        have hns' : ∀ m ∈ rest,
            m ∈ fileNames (renameFile st.dir n (C.take HASH_LEN ++ mp3Ext))
            ∧ matchesMp3 m = true := by
          intro m hm
          obtain ⟨hm1, hm2⟩ := hns m (List.mem_cons_of_mem _ hm)
          exact ⟨hkeep m hm1 (hrestmem m hm), hm2⟩
        have hent' : ∀ e ∈ st.filenames ++ [C.take HASH_LEN ++ mp3Ext],
            EntryOK (renameFile st.dir n (C.take HASH_LEN ++ mp3Ext)) e := by
          intro e he
          rcases List.mem_append.mp he with he | he
          · rcases hent e he with ⟨hh, hm, hmm⟩ | ⟨C', hC'l, hC'v, hC'e, hC'c⟩
            · exact Or.inl ⟨hh, hkeep e hm (hashed_ne_of_not hh hnf), hmm⟩
            · have hen : e ≠ n := by
                intro heq
                rw [heq, hC] at hC'l
                obtain rfl := Option.some.inj hC'l
                exact hcand_notmem hC'c
              have hef : e ≠ C.take HASH_LEN ++ mp3Ext := by
                intro heq
                exact hcand_notmem (heq ▸ mem_of_lookupName hC'l)
              refine Or.inr ⟨C', ?_, hC'v, hC'e, ?_⟩
              · rw [lookupName_renameFile_other hen hef]
                exact hC'l
              · exact hkeep _ hC'c
                  (hashed_ne_of_not (hashed_cand12 hC'v) hnf)
          · obtain rfl := List.mem_singleton.mp he
            exact Or.inl ⟨hcand_h, hcand_mem2, hcand_m⟩
        have hperm' :
            (mp3Names (renameFile st.dir n (C.take HASH_LEN ++ mp3Ext))).Perm
              ((st.filenames ++ [C.take HASH_LEN ++ mp3Ext]) ++ rest) ∨
            ∃ e ∈ st.filenames ++ [C.take HASH_LEN ++ mp3Ext],
              is_already_hashed e = false := by
          rcases hperm with hp | ⟨e, he, hf⟩
          · left
            have hren : (mp3Names
                (renameFile st.dir n (C.take HASH_LEN ++ mp3Ext))).Perm
                ((C.take HASH_LEN ++ mp3Ext) :: (mp3Names st.dir).erase n) :=
              mp3Names_renameFile_perm hnd hmemn hcand_notmem hmatchn hcand_m
            have hp2 : (mp3Names st.dir).Perm (n :: (st.filenames ++ rest)) :=
              hp.trans List.perm_middle
            have hp3 : ((mp3Names st.dir).erase n).Perm
                (st.filenames ++ rest) := perm_erase_cons hp2
            have hp4 := hren.trans (hp3.cons (C.take HASH_LEN ++ mp3Ext))
            have hp5 : ((C.take HASH_LEN ++ mp3Ext) ::
                (st.filenames ++ rest)).Perm
                ((st.filenames ++ [C.take HASH_LEN ++ mp3Ext]) ++ rest) := by
              have hmid := (@List.perm_middle _ (C.take HASH_LEN ++ mp3Ext)
                st.filenames rest).symm
              simpa using hmid
            exact hp4.trans hp5
          · exact Or.inr ⟨e, List.mem_append_left _ he, hf⟩
        obtain ⟨st', hrun, h1, h2, h3, h4⟩ :=
          runLoop_master rest
            ⟨renameFile st.dir n (C.take HASH_LEN ++ mp3Ext),
              st.filenames ++ [C.take HASH_LEN ++ mp3Ext], st.renamed + 1⟩
            hnodup'.2 hnd2 hv2 hns' hent' hperm'
        refine ⟨st', ?_, h1, h2, h3, h4⟩
        rw [runLoop_cons_of_some hstep]
        exact hrun

/-! Facts about the sorted glob. -/

theorem globMp3Sorted_perm (d : Dir) : (globMp3Sorted d).Perm (mp3Names d) :=
  List.perm_insertionSort nameLe _

theorem globMp3Sorted_nodup {d : Dir} (h : NodupNames d) :
    (globMp3Sorted d).Nodup :=
  (globMp3Sorted_perm d).symm.nodup (List.Nodup.filter _ h)

theorem globMp3Sorted_mem {d : Dir} {n : Name} :
    n ∈ globMp3Sorted d ↔ n ∈ fileNames d ∧ matchesMp3 n = true := by
  unfold globMp3Sorted sortNames mp3Names
  rw [List.mem_insertionSort]
  exact List.mem_filter

/-- Inversion of a successful `mainFn` run. -/
theorem mainFn_success_inv {d d' : Dir} {m : List Name} {rc : Nat}
    (h : mainFn (some d) = ⟨0, none, some d', some m, rc⟩) :
    globMp3Sorted d ≠ [] ∧
    ∃ fns, runLoop ⟨d, [], 0⟩ (globMp3Sorted d) = Except.ok ⟨d', fns, rc⟩ ∧
      m = sortNames fns := by
  simp only [mainFn] at h
  by_cases hemp : (globMp3Sorted d).isEmpty = true
  · rw [if_pos hemp] at h
    simp [MainResult.mk.injEq] at h
  · rw [if_neg hemp] at h
    cases hrl : runLoop ⟨d, [], 0⟩ (globMp3Sorted d) with
    | error st =>
      rw [hrl] at h
      simp [MainResult.mk.injEq] at h
    | ok st =>
      rw [hrl] at h
      rw [MainResult.mk.injEq] at h
      obtain ⟨-, -, h3, h4, h5⟩ := h
      refine ⟨fun hnil => hemp (by simp [hnil]), st.filenames, ?_,
        (Option.some.inj h4).symm⟩
      congr 1
      cases st with
      | mk sdir sfns sren =>
        exact (LoopState.mk.injEq _ _ _ _ _ _).mpr
          ⟨Option.some.inj h3, rfl, h5⟩

/-- Successful runs satisfy the master invariant. -/
theorem mainFn_success_master {d d' : Dir} {m : List Name} {rc : Nat}
    (hnd : NodupNames d) (hv : ValidDigests d)
    (h : mainFn (some d) = ⟨0, none, some d', some m, rc⟩) :
    ∃ fns, m = sortNames fns ∧
      runLoop ⟨d, [], 0⟩ (globMp3Sorted d) = Except.ok ⟨d', fns, rc⟩ ∧
      globMp3Sorted d ≠ [] ∧
      NodupNames d' ∧ ValidDigests d' ∧
      (∀ e ∈ fns, EntryOK d' e) ∧
      ((mp3Names d').Perm fns ∨ ∃ e ∈ fns, is_already_hashed e = false) := by
  obtain ⟨hne, fns, hrl, hm⟩ := mainFn_success_inv h
  obtain ⟨st', hrl', h1, h2, h3, h4⟩ :=
    runLoop_master (globMp3Sorted d) ⟨d, [], 0⟩
      (globMp3Sorted_nodup hnd) hnd hv
      (fun n hn => globMp3Sorted_mem.mp hn)
      (by intro e he; simp at he)
      (Or.inl (by simpa using (globMp3Sorted_perm d).symm))
  rw [hrl] at hrl'
  obtain rfl := (Except.ok.inj hrl').symm
  exact ⟨fns, hm, hrl, hne, h1, h2, h3, h4⟩

/-! Claim theorems. -/

/-- C7: if the input directory does not exist or is not a directory, the run
terminates with a non-zero exit status and a diagnostic on the error stream,
and performs no filesystem mutation: no rename happens and no manifest is
written. -/
theorem missing_dir_aborts :
    mainFn none = ⟨1, some Diagnostic.audioDirNotFound, none, none, 0⟩ ∧
    (mainFn none).exitCode ≠ 0 ∧ (mainFn none).manifest = none ∧
    (mainFn none).renamedCount = 0 := by decide

/-- C8: if the directory exists but holds no `.mp3` file, the run exits with
status 1 after a stderr diagnostic, the directory is returned unchanged (no
rename), and the manifest file is neither created nor overwritten. -/
theorem no_matching_files_aborts {d : Dir} (h : mp3Names d = []) :
    mainFn (some d) = ⟨1, some Diagnostic.noMp3Found, some d, none, 0⟩ := by
  have hglob : globMp3Sorted d = [] := by
    unfold globMp3Sorted
    rw [h]
    rfl
  simp only [mainFn]
  rw [hglob]
  rfl

/-- Witness for C8 at a concrete directory containing only `notes.txt`. -/
theorem no_matching_files_aborts_witness :
    mp3Names dirTxt = [] ∧
    mainFn (some dirTxt)
      = ⟨1, some Diagnostic.noMp3Found, some dirTxt, none, 0⟩ :=
  ⟨by decide, no_matching_files_aborts (by decide)⟩

/-- C9: whenever a manifest is written, its entries are in non-decreasing
lexicographic order. -/
theorem manifest_sorted {fs : Option Dir} {m : List Name}
    (h : (mainFn fs).manifest = some m) : List.Sorted nameLe m := by
  cases fs with
  | none => simp [mainFn] at h
  | some d =>
    simp only [mainFn] at h
    by_cases hemp : (globMp3Sorted d).isEmpty = true
    · rw [if_pos hemp] at h
      simp at h
    · rw [if_neg hemp] at h
      cases hrl : runLoop ⟨d, [], 0⟩ (globMp3Sorted d) with
      | error st =>
        rw [hrl] at h
        simp at h
      | ok st =>
        rw [hrl] at h
        have hm : sortNames st.filenames = m := Option.some.inj h
        rw [← hm]
        exact List.sorted_insertionSort nameLe _

/-- Witness for C9 at a concrete one-file directory. -/
theorem manifest_sorted_witness :
    (mainFn (some dirSong)).manifest = some ["deadbeefcafe.mp3".toList] ∧
    List.Sorted nameLe ["deadbeefcafe.mp3".toList] :=
  ⟨by decide, @manifest_sorted (some dirSong) ["deadbeefcafe.mp3".toList]
    (by decide)⟩

/-- C5 (amended): the manifest's entry count equals the number of `.mp3`
files found by the directory scan at the start of the run; when a fallback
rename silently overwrites a file, the directory afterwards holds fewer
files than the manifest has entries. -/
theorem manifest_length_eq_scan {d d' : Dir} {m : List Name} {rc : Nat}
    (h : mainFn (some d) = ⟨0, none, some d', some m, rc⟩) :
    m.length = (mp3Names d).length := by
  obtain ⟨hne, fns, hrl, rfl⟩ := mainFn_success_inv h
  have h2 := runLoop_length _ _ _ hrl
  have h3 : fns.length = (globMp3Sorted d).length := by simpa using h2
  have h4 : (sortNames fns).length = fns.length :=
    List.length_insertionSort _ _
  rw [h4, h3]
  exact (globMp3Sorted_perm d).length_eq

/-- Counterexample to C5 as stated: on `dirOver` the run succeeds with a
three-entry manifest while only two `.mp3` files remain in the directory. -/
theorem c5_counterexample :
    mainFn (some dirOver) = ⟨0, none, some dirOverAfter, some manOver, 3⟩ ∧
    manOver.length = 3 ∧ (mp3Names dirOverAfter).length = 2 := by decide

/-- Witness for the amended C5 at a concrete one-file directory. -/
theorem manifest_length_eq_scan_witness :
    mainFn (some dirSong)
      = ⟨0, none, some dirSongAfter, some ["deadbeefcafe.mp3".toList], 1⟩ ∧
    (["deadbeefcafe.mp3".toList] : List Name).length
      = (mp3Names dirSong).length :=
  ⟨by decide, @manifest_length_eq_scan dirSong dirSongAfter
    ["deadbeefcafe.mp3".toList] 1 (by decide)⟩

/-- C4: after every successful run on a well-formed directory, every
manifest entry is twelve lowercase hex characters followed by ".mp3", or
sixteen such characters followed by ".mp3" in the collision case. -/
theorem manifest_conformance {d d' : Dir} {m : List Name} {rc : Nat}
    (hnd : NodupNames d) (hv : ValidDigests d)
    (h : mainFn (some d) = ⟨0, none, some d', some m, rc⟩) :
    ∀ e ∈ m, Conforms HASH_LEN e ∨ Conforms (HASH_LEN + 4) e := by
  obtain ⟨fns, rfl, hrl, hne, hnd', hv', hent, hdisj⟩ :=
    mainFn_success_master hnd hv h
  intro e he
  have he' : e ∈ fns := (List.mem_insertionSort nameLe).mp he
  rcases hent e he' with ⟨hh, _, hmm⟩ | ⟨C, _, hCv, hCe, _⟩
  · exact Or.inl (conform_of_hashed hmm hh)
  · exact Or.inr ⟨C.take (HASH_LEN + 4), hCe,
      (validDigest_take_props hCv (HASH_LEN + 4) (by norm_num [HASH_LEN])).1,
      (validDigest_take_props hCv (HASH_LEN + 4) (by norm_num [HASH_LEN])).2⟩

/-- Witness for C4 at a concrete one-file directory. -/
theorem manifest_conformance_witness :
    NodupNames dirSong ∧ ValidDigests dirSong ∧
    mainFn (some dirSong)
      = ⟨0, none, some dirSongAfter, some ["deadbeefcafe.mp3".toList], 1⟩ ∧
    (∀ e ∈ (["deadbeefcafe.mp3".toList] : List Name),
      Conforms HASH_LEN e ∨ Conforms (HASH_LEN + 4) e) :=
  ⟨by decide, by decide, by decide,
   @manifest_conformance dirSong dirSongAfter ["deadbeefcafe.mp3".toList] 1
     (by decide) (by decide) (by decide)⟩

/-- C6 (amended): after every successful run on a well-formed directory,
every manifest entry names a file that exists in the directory with the
`.mp3` extension; the manifest is moreover duplicate-free whenever all its
entries are conforming 12-character names (no fallback used). With a
16-character digest collision the fallback rename overwrites silently and
the manifest can repeat an entry. -/
theorem manifest_entries_exist {d d' : Dir} {m : List Name} {rc : Nat}
    (hnd : NodupNames d) (hv : ValidDigests d)
    (h : mainFn (some d) = ⟨0, none, some d', some m, rc⟩) :
    (∀ e ∈ m, e ∈ fileNames d' ∧ matchesMp3 e = true) ∧
    ((∀ e ∈ m, is_already_hashed e = true) → m.Nodup) := by
  obtain ⟨fns, rfl, hrl, hne, hnd', hv', hent, hdisj⟩ :=
    mainFn_success_master hnd hv h
  constructor
  · intro e he
    have he' : e ∈ fns := (List.mem_insertionSort nameLe).mp he
    rcases hent e he' with ⟨_, hm, hmm⟩ | ⟨C, hCl, _, hCe, _⟩
    · exact ⟨hm, hmm⟩
    · refine ⟨mem_of_lookupName hCl, ?_⟩
      rw [hCe]
      exact matchesMp3_append _
  · intro hall
    have hallf : ∀ e ∈ fns, is_already_hashed e = true := fun e he =>
      hall e ((List.mem_insertionSort nameLe).mpr he)
    rcases hdisj with hperm | ⟨e, he, hf⟩
    · have hnodup : fns.Nodup := hperm.nodup (List.Nodup.filter _ hnd')
      exact (List.perm_insertionSort nameLe fns).symm.nodup hnodup
    · rw [hallf e he] at hf
      exact Bool.noConfusion hf

/-- Counterexample to C6 as stated: on `dirDup` (three files whose digests
collide on the first 16 hex characters) the run succeeds but the manifest
contains the same entry twice. -/
theorem c6_counterexample :
    mainFn (some dirDup) = ⟨0, none, some dirDupAfter, some manDup, 3⟩ ∧
    ¬ manDup.Nodup := by decide

/-- Witness for the amended C6 at a concrete two-file directory. -/
theorem manifest_entries_exist_witness :
    NodupNames dirIdem ∧ ValidDigests dirIdem ∧
    mainFn (some dirIdem) = ⟨0, none, some dirIdemAfter, some manIdem, 2⟩ ∧
    ((∀ e ∈ manIdem, e ∈ fileNames dirIdemAfter ∧ matchesMp3 e = true) ∧
      ((∀ e ∈ manIdem, is_already_hashed e = true) → manIdem.Nodup)) :=
  ⟨by decide, by decide, by decide,
   @manifest_entries_exist dirIdem dirIdemAfter manIdem 2
     (by decide) (by decide) (by decide)⟩

/-- C1 (amended): after one successful run in which the K+4 fallback was
never used — equivalently, every manifest entry passes the conformance
check — a second run with no external modification renames zero files,
leaves the directory unchanged, and writes a manifest identical to the
first run's. When the fallback was used, the 16-character names fail the
conformance check and are re-processed, so the second run renames at least
one file. -/
theorem second_run_identical_no_fallback {d d' : Dir} {m : List Name}
    {rc : Nat} (hnd : NodupNames d) (hv : ValidDigests d)
    (h : mainFn (some d) = ⟨0, none, some d', some m, rc⟩)
    (hall : ∀ e ∈ m, is_already_hashed e = true) :
    mainFn (some d') = ⟨0, none, some d', some m, 0⟩ := by
  obtain ⟨fns, rfl, hrl, hne, hnd', hv', hent, hdisj⟩ :=
    mainFn_success_master hnd hv h
  have hallf : ∀ e ∈ fns, is_already_hashed e = true := fun e he =>
    hall e ((List.mem_insertionSort nameLe).mpr he)
  have hperm : (mp3Names d').Perm fns := by
    rcases hdisj with hp | ⟨e, he, hf⟩
    · exact hp
    · rw [hallf e he] at hf
      exact Bool.noConfusion hf
  have hsortedm : List.Sorted nameLe (sortNames fns) :=
    List.sorted_insertionSort nameLe fns
  have hglob2 : globMp3Sorted d' = sortNames fns := by
    refine List.eq_of_perm_of_sorted ?_
      (List.sorted_insertionSort nameLe (mp3Names d')) hsortedm
    exact (globMp3Sorted_perm d').trans
      (hperm.trans (List.perm_insertionSort nameLe fns).symm)
  have hlen : fns.length = (globMp3Sorted d).length := by
    simpa using runLoop_length _ _ _ hrl
  have hmne : sortNames fns ≠ [] := by
    intro hnil
    apply hne
    have h1 : fns.length = 0 := by
      have h2 := congrArg List.length hnil
      rwa [sortNames, List.length_insertionSort] at h2
    rw [h1] at hlen
    exact List.length_eq_zero.mp hlen.symm
  have hall2 : ∀ n ∈ globMp3Sorted d', is_already_hashed n = true := by
    rw [hglob2]
    exact hall
  have hrun2 := runLoop_passthrough (globMp3Sorted d') ⟨d', [], 0⟩ hall2
  rw [hglob2] at hrun2
  simp only [mainFn]
  rw [hglob2]
  rw [if_neg
    (fun hc : (sortNames fns).isEmpty = true => hmne (List.isEmpty_iff.mp hc))]
  rw [hrun2]
  simp
  exact List.Sorted.insertionSort_eq hsortedm

/-- Counterexample to C1 as stated: on `dirCex1` (two digests sharing their
first 12 hex characters) the first run succeeds using the fallback; the
second run renames one file (to itself) rather than zero, and the
16-character name fails the conformance check — though the manifest it
writes is identical. -/
theorem c1_counterexample :
    mainFn (some dirCex1) = ⟨0, none, some dirCex1After, some manCex1, 2⟩ ∧
    (mainFn (some dirCex1After)).renamedCount = 1 ∧
    (mainFn (some dirCex1After)).manifest = some manCex1 ∧
    is_already_hashed ("000000000000bbbb.mp3".toList) = false := by decide

/-- Witness for the amended C1 at a concrete two-file directory. -/
theorem second_run_identical_no_fallback_witness :
    NodupNames dirIdem ∧ ValidDigests dirIdem ∧
    mainFn (some dirIdem) = ⟨0, none, some dirIdemAfter, some manIdem, 2⟩ ∧
    (∀ e ∈ manIdem, is_already_hashed e = true) ∧
    mainFn (some dirIdemAfter)
      = ⟨0, none, some dirIdemAfter, some manIdem, 0⟩ :=
  ⟨by decide, by decide, by decide, by decide,
   @second_run_identical_no_fallback dirIdem dirIdemAfter manIdem 2
     (by decide) (by decide) (by decide) (by decide)⟩

/-- C3: a directory holding the single non-conforming file `song.mp3` whose
full-content digest starts with "deadbeefcafe" sees the file renamed to
`deadbeefcafe.mp3` (first 12 hex characters of the digest plus ".mp3") and
the manifest is exactly ["deadbeefcafe.mp3"]. -/
theorem single_file_hash_rename {D : Digest}
    (hD : D.take HASH_LEN = "deadbeefcafe".toList) :
    mainFn (some [("song.mp3".toList, D)])
      = ⟨0, none, some [("deadbeefcafe.mp3".toList, D)],
          some ["deadbeefcafe.mp3".toList], 1⟩ := by
  have hglob : globMp3Sorted [("song.mp3".toList, D)]
      = ["song.mp3".toList] := rfl
  have hn : is_already_hashed "song.mp3".toList = false := by decide
  have hlook : lookupName "song.mp3".toList [("song.mp3".toList, D)]
      = some D := by
    simp [lookupName]
  have hcand : D.take HASH_LEN ++ mp3Ext = "deadbeefcafe.mp3".toList := by
    rw [hD]
    decide
  have hex : existsIn [("song.mp3".toList, D)] ("deadbeefcafe.mp3".toList)
      = false := rfl
  have hni : ¬ (existsIn [("song.mp3".toList, D)]
        (D.take HASH_LEN ++ mp3Ext) = true
      ∧ D.take HASH_LEN ++ mp3Ext ≠ "song.mp3".toList) := by
    rw [hcand]
    rintro ⟨h1, -⟩
    rw [hex] at h1
    exact Bool.noConfusion h1
  have hren : renameFile [("song.mp3".toList, D)] "song.mp3".toList
      (D.take HASH_LEN ++ mp3Ext) = [("deadbeefcafe.mp3".toList, D)] := by
    rw [hcand]
    rw [renameFile_eq_of_ne
      (by decide : "song.mp3".toList ≠ "deadbeefcafe.mp3".toList)]
    simp
  simp only [mainFn]
  rw [hglob]
  rw [if_neg
    (by decide : ¬ ((["song.mp3".toList] : List Name).isEmpty = true))]
  rw [runLoop_cons_of_some (processFile_rename_fresh hn hlook hni)]
  simp only [runLoop]
  rw [hren, hcand]
  simp [sortNames, List.insertionSort, List.orderedInsert]

/-- Witness for C3 at the concrete digest `digSong`. -/
theorem single_file_hash_rename_witness :
    digSong.take HASH_LEN = "deadbeefcafe".toList ∧
    mainFn (some [("song.mp3".toList, digSong)])
      = ⟨0, none, some [("deadbeefcafe.mp3".toList, digSong)],
          some ["deadbeefcafe.mp3".toList], 1⟩ :=
  ⟨by decide, @single_file_hash_rename digSong (by decide)⟩

/-- C2: with two distinct non-conforming files whose digests share their
first 12 hex characters, the first file gets the 12-character name; the
second finds that name taken by a different file and is renamed to the
first 16 (K+4) characters of its own digest instead, so the manifest holds
one 12-character and one 16-character name. -/
theorem collision_uses_longer_hash {D1 D2 : Digest}
    (h1 : ValidDigest D1) (h2 : ValidDigest D2)
    (h12 : D1.take HASH_LEN = D2.take HASH_LEN) :
    mainFn (some [("a.mp3".toList, D1), ("b.mp3".toList, D2)])
      = ⟨0, none,
          some [(D1.take HASH_LEN ++ mp3Ext, D1),
                (D2.take (HASH_LEN + 4) ++ mp3Ext, D2)],
          some [D1.take HASH_LEN ++ mp3Ext,
                D2.take (HASH_LEN + 4) ++ mp3Ext], 2⟩ := by
  have hlen1 : (D1.take HASH_LEN).length = HASH_LEN :=
    (validDigest_take_props h1 HASH_LEN (by norm_num [HASH_LEN])).1
  have hlen2 : (D2.take (HASH_LEN + 4)).length = HASH_LEN + 4 :=
    (validDigest_take_props h2 (HASH_LEN + 4) (by norm_num [HASH_LEN])).1
  have hA_ne_cand1 : "a.mp3".toList ≠ D1.take HASH_LEN ++ mp3Ext :=
    ne_of_length_ne (by rw [List.length_append, hlen1]; decide)
  have hB_ne_cand1 : "b.mp3".toList ≠ D1.take HASH_LEN ++ mp3Ext :=
    ne_of_length_ne (by rw [List.length_append, hlen1]; decide)
  have hB_ne_fin2 : "b.mp3".toList ≠ D2.take (HASH_LEN + 4) ++ mp3Ext :=
    ne_of_length_ne (by rw [List.length_append, hlen2]; decide)
  have hcand1_ne_fin2 : D1.take HASH_LEN ++ mp3Ext
      ≠ D2.take (HASH_LEN + 4) ++ mp3Ext := cand12_ne_cand16 h1 h2
  have hcand1_ne_b : D1.take HASH_LEN ++ mp3Ext ≠ "b.mp3".toList :=
    fun h => hB_ne_cand1 h.symm
  have hcand2_eq : D2.take HASH_LEN ++ mp3Ext
      = D1.take HASH_LEN ++ mp3Ext := by rw [h12]
  have hA' : ('a' :: '.' :: 'm' :: 'p' :: '3' :: [])
      ≠ D1.take HASH_LEN ++ mp3Ext := hA_ne_cand1
  have hB' : ('b' :: '.' :: 'm' :: 'p' :: '3' :: [])
      ≠ D1.take HASH_LEN ++ mp3Ext := hB_ne_cand1
  have hBf' : ('b' :: '.' :: 'm' :: 'p' :: '3' :: [])
      ≠ D2.take (HASH_LEN + 4) ++ mp3Ext := hB_ne_fin2
  have hc1b' : D1.take HASH_LEN ++ mp3Ext
      ≠ ('b' :: '.' :: 'm' :: 'p' :: '3' :: []) := hcand1_ne_b
  have hglob : globMp3Sorted [("a.mp3".toList, D1), ("b.mp3".toList, D2)]
      = ["a.mp3".toList, "b.mp3".toList] := rfl
  have hnA : is_already_hashed "a.mp3".toList = false := by decide
  have hnB : is_already_hashed "b.mp3".toList = false := by decide
  have hlookA : lookupName "a.mp3".toList
      [("a.mp3".toList, D1), ("b.mp3".toList, D2)] = some D1 := by
    simp [lookupName]
  have hexA : existsIn [("a.mp3".toList, D1), ("b.mp3".toList, D2)]
      (D1.take HASH_LEN ++ mp3Ext) = false := by
    simp [existsIn, lookupName, hA_ne_cand1, hB_ne_cand1, hA', hB']
  have hniA : ¬ (existsIn [("a.mp3".toList, D1), ("b.mp3".toList, D2)]
        (D1.take HASH_LEN ++ mp3Ext) = true
      ∧ D1.take HASH_LEN ++ mp3Ext ≠ "a.mp3".toList) := by
    rintro ⟨hc, -⟩
    rw [hexA] at hc
    exact Bool.noConfusion hc
  have hba : "b.mp3".toList ≠ "a.mp3".toList := by decide
  have hrenA : renameFile [("a.mp3".toList, D1), ("b.mp3".toList, D2)]
      "a.mp3".toList (D1.take HASH_LEN ++ mp3Ext)
      = [(D1.take HASH_LEN ++ mp3Ext, D1), ("b.mp3".toList, D2)] := by
    rw [renameFile_eq_of_ne hA_ne_cand1]
    simp [hA_ne_cand1, hB_ne_cand1, hba, hA', hB',
      (by decide : ¬ ('b' :: '.' :: 'm' :: 'p' :: '3' :: [])
        = ('a' :: '.' :: 'm' :: 'p' :: '3' :: []))]
  have hlookB : lookupName "b.mp3".toList
      [(D1.take HASH_LEN ++ mp3Ext, D1), ("b.mp3".toList, D2)]
      = some D2 := by
    simp [lookupName, hcand1_ne_b, hc1b']
  have hexB : existsIn [(D1.take HASH_LEN ++ mp3Ext, D1),
      ("b.mp3".toList, D2)] (D2.take HASH_LEN ++ mp3Ext) = true := by
    rw [hcand2_eq]
    simp [existsIn, lookupName]
  have hcB : existsIn [(D1.take HASH_LEN ++ mp3Ext, D1),
        ("b.mp3".toList, D2)] (D2.take HASH_LEN ++ mp3Ext) = true
      ∧ D2.take HASH_LEN ++ mp3Ext ≠ "b.mp3".toList := by
    refine ⟨hexB, ?_⟩
    rw [hcand2_eq]
    exact hcand1_ne_b
  have hrenB : renameFile [(D1.take HASH_LEN ++ mp3Ext, D1),
      ("b.mp3".toList, D2)] "b.mp3".toList
      (D2.take (HASH_LEN + 4) ++ mp3Ext)
      = [(D1.take HASH_LEN ++ mp3Ext, D1),
         (D2.take (HASH_LEN + 4) ++ mp3Ext, D2)] := by
    rw [renameFile_eq_of_ne hB_ne_fin2]
    simp [hcand1_ne_fin2, hB_ne_fin2, hcand1_ne_b, hBf', hc1b']
  have hle : nameLe (D1.take HASH_LEN ++ mp3Ext)
      (D2.take (HASH_LEN + 4) ++ mp3Ext) := by
    unfold nameLe
    have htk : D2.take (HASH_LEN + 4)
        = D2.take HASH_LEN ++ (D2.drop HASH_LEN).take 4 :=
      List.take_add D2 HASH_LEN 4
    rw [h12, htk, List.append_assoc, lexLe_append_same]
    have ht4 : ((D2.drop HASH_LEN).take 4).length = 4 := by
      rw [List.length_take, List.length_drop, h2.1]
      norm_num [HASH_LEN]
    obtain ⟨c, t, hct⟩ :=
      @List.exists_cons_of_ne_nil Char ((D2.drop HASH_LEN).take 4)
        (fun hnil => by rw [hnil] at ht4; exact absurd ht4 (by decide))
    have hc_mem : c ∈ hexDigits :=
      h2.2 c (List.drop_subset HASH_LEN D2
        (List.take_subset 4 _ (hct ▸ List.mem_cons_self c t)))
    have hdot : '.' < c := hex_gt_dot c hc_mem
    rw [hct, mp3Ext_eq]
    simp [lexLe, hdot]
  have hsort : sortNames [D1.take HASH_LEN ++ mp3Ext,
      D2.take (HASH_LEN + 4) ++ mp3Ext]
      = [D1.take HASH_LEN ++ mp3Ext, D2.take (HASH_LEN + 4) ++ mp3Ext] := by
    simp [sortNames, List.insertionSort, List.orderedInsert, hle]
  simp only [mainFn]
  rw [hglob]
  rw [if_neg (by decide :
    ¬ ((["a.mp3".toList, "b.mp3".toList] : List Name).isEmpty = true))]
  rw [runLoop_cons_of_some (processFile_rename_fresh hnA hlookA hniA)]
  rw [hrenA]
  rw [runLoop_cons_of_some (processFile_rename_coll hnB hlookB hcB)]
  rw [hrenB]
  simp only [runLoop]
  simp [hsort]

/-- Witness for C2 at concrete digests sharing their first 12 characters. -/
theorem collision_uses_longer_hash_witness :
    ValidDigest digColl1 ∧ ValidDigest digColl2 ∧
    digColl1.take HASH_LEN = digColl2.take HASH_LEN ∧
    mainFn (some [("a.mp3".toList, digColl1), ("b.mp3".toList, digColl2)])
      = ⟨0, none,
          some [(digColl1.take HASH_LEN ++ mp3Ext, digColl1),
                (digColl2.take (HASH_LEN + 4) ++ mp3Ext, digColl2)],
          some [digColl1.take HASH_LEN ++ mp3Ext,
                digColl2.take (HASH_LEN + 4) ++ mp3Ext], 2⟩ :=
  ⟨by decide, by decide, by decide,
   @collision_uses_longer_hash digColl1 digColl2
     (by decide) (by decide) (by decide)⟩

/-- Each loop step preserves the validity of all stored digests. -/
theorem processFile_validDigests {st st2 : LoopState} {n : Name}
    (hp : processFile st n = some st2) (hv : ValidDigests st.dir) :
    ValidDigests st2.dir := by
  unfold processFile at hp
  split at hp
  · obtain rfl := Option.some.inj hp
    exact hv
  · split at hp
    · exact Option.noConfusion hp
    · obtain rfl := Option.some.inj hp
      exact validDigests_renameFile hv

/-- Every step of the guard-free variant agrees with the original step on
directories whose digests are well-formed. -/
theorem processFileAlt_eq {st : LoopState} {n : Name}
    (hv : ValidDigests st.dir) : processFileAlt st n = processFile st n := by
  unfold processFileAlt processFile
  by_cases hn : is_already_hashed n = true
  · simp [hn]
  · have hnf : is_already_hashed n = false := by simpa using hn
    simp only [hnf, Bool.false_eq_true, if_false]
    cases hl : lookupName n st.dir with
    | none => simp [sha256_of_file, hl]
    | some dig =>
      have hdigv : ValidDigest dig := hv (n, dig) (lookupName_mem hl)
      have hne : dig.take HASH_LEN ++ mp3Ext ≠ n :=
        hashed_ne_of_not (hashed_cand12 hdigv) hnf
      simp only [sha256_of_file, hl]
      simp only [and_iff_left hne]

/-- The loops of the two programs agree on valid directories. -/
theorem runLoopAlt_eq : ∀ (ns : List Name) (st : LoopState),
    ValidDigests st.dir → runLoopAlt st ns = runLoop st ns
  | [], _, _ => rfl
  | n :: rest, st, hv => by
    cases hp : processFile st n with
    | none => simp [runLoopAlt, runLoop, processFileAlt_eq hv, hp]
    | some st2 =>
      have hv2 : ValidDigests st2.dir := processFile_validDigests hp hv
      simp [runLoopAlt, runLoop, processFileAlt_eq hv, hp,
        runLoopAlt_eq rest st2 hv2]

/-- C10: in the rename branch the 12-character candidate name is always a
conforming name while the file's own name is not, so the `new_path != mp3`
conjunct of the collision test is always true there; dropping it and
checking `new_path.exists()` alone yields an observably identical program
on every directory whose digests are well-formed. -/
theorem collision_guard_redundant {d : Dir} (hv : ValidDigests d) :
    mainFnAlt (some d) = mainFn (some d) ∧
    (∀ n C, is_already_hashed n = false → ValidDigest C →
      is_already_hashed (C.take HASH_LEN ++ mp3Ext) = true ∧
      C.take HASH_LEN ++ mp3Ext ≠ n) := by
  constructor
  · simp only [mainFnAlt, mainFn]
    rw [runLoopAlt_eq _ _ hv]
  · intro n C hn hC
    exact ⟨hashed_cand12 hC, hashed_ne_of_not (hashed_cand12 hC) hn⟩

/-- Witness for C10 at a concrete one-file directory. -/
theorem collision_guard_redundant_witness :
    ValidDigests dirSong ∧
    (mainFnAlt (some dirSong) = mainFn (some dirSong) ∧
      (∀ n C, is_already_hashed n = false → ValidDigest C →
        is_already_hashed (C.take HASH_LEN ++ mp3Ext) = true ∧
        C.take HASH_LEN ++ mp3Ext ≠ n)) :=
  ⟨by decide, @collision_guard_redundant dirSong (by decide)⟩
